import Mathlib

/-!
# Verification of the smart-file-assistant indexing-and-retrieval core

Shallow embedding of the core pipeline of the repository:
text chunking (`src/utils/embeddingUtils.ts`), embedding aggregation,
the modality embedders (`src/services/embeddingService.ts`), the model
service (`src/services/modelService.ts`), the index store
(`src/services/databaseService.ts`), the folder scanner and the batch
orchestrator (`src/services/fileService.ts`).

JavaScript strings are modelled as `List Char` indexed by code unit,
JavaScript numbers as `ℚ` where the code only performs field arithmetic
and as `ℝ` in the model service, where `Math.sin`/`Math.sqrt` appear.
Fallible operations return `Except String`, carrying the source's
error-message strings.  External collaborators (filesystem, thumbnail
extraction, the RxDB storage engine) are parameters of the definitions
that call them.
-/

namespace SFA

/-! ## ContentChunker: `splitTextIntoChunks` (src/utils/embeddingUtils.ts lines 7-61) -/

/-- `text.startsWith(sub)` at position `i`: the JS substring match used by
`String.prototype.lastIndexOf`. -/
def startsWithAt (text sub : List Char) (i : Nat) : Bool :=
  decide ((text.drop i).take sub.length = sub)

/-- JS `text.lastIndexOf(sub, fromIdx)`: the largest position `i ≤ fromIdx`
at which `sub` begins in `text`, or `-1` when there is none. -/
def lastIndexOf (text sub : List Char) (fromIdx : Nat) : Int :=
  match ((List.range (fromIdx + 1)).filter (fun i => startsWithAt text sub i)).getLast? with
  | some i => Int.ofNat i
  | none => -1

/-- The `endIndex` chosen by one iteration of the `splitTextIntoChunks` loop
starting at `startIndex = start` with `maxChunkLength = L`.
The JS comparison `b > startIndex + maxChunkLength / 2` uses float division;
for integer `b` it is equivalent to `2 * b > 2 * startIndex + L`, which is how
it is written here. -/
def chooseEnd (text : List Char) (L : Nat) (start : Nat) : Nat :=
  let endIdx := start + L
  if endIdx < text.length then
    let paragraphBreak := lastIndexOf text [Char.ofNat 10, Char.ofNat 10] endIdx
    if paragraphBreak > (start : Int) ∧ 2 * paragraphBreak > 2 * (start : Int) + (L : Int) then
      paragraphBreak.toNat + 2
    else
      let newlineBreak := lastIndexOf text [Char.ofNat 10] endIdx
      if newlineBreak > (start : Int) ∧ 2 * newlineBreak > 2 * (start : Int) + (L : Int) then
        newlineBreak.toNat + 1
      else
        let sentenceBreak := max (lastIndexOf text [Char.ofNat 46, Char.ofNat 32] endIdx)
          (max (lastIndexOf text [Char.ofNat 33, Char.ofNat 32] endIdx)
            (lastIndexOf text [Char.ofNat 63, Char.ofNat 32] endIdx))
        if sentenceBreak > (start : Int) ∧ 2 * sentenceBreak > 2 * (start : Int) + (L : Int) then
          sentenceBreak.toNat + 2
        else
          let spaceBreak := lastIndexOf text [Char.ofNat 32] endIdx
          if spaceBreak > (start : Int) ∧ 2 * spaceBreak > 2 * (start : Int) + (L : Int) then
            spaceBreak.toNat + 1
          else endIdx
  else endIdx

/-- The `while (startIndex < text.length)` loop of `splitTextIntoChunks`.
`text.substring(startIndex, endIndex)` is `(text.drop start).take (e - start)`
(JS `substring` clamps `endIndex` to the length).  The loop advances by at
least one position per iteration whenever `L ≥ 1` (every boundary branch
requires the break position to exceed `startIndex`), so a fuel of
`text.length + 1` always suffices; the `start < e` guard matches the fact
that the JS loop never terminates when `maxChunkLength = 0`, a case the
spec excludes. -/
def chunksLoop : Nat → List Char → Nat → Nat → List (List Char)
  | 0, _, _, _ => []
  | fuel + 1, text, L, start =>
    if start < text.length then
      let e := chooseEnd text L start
      if start < e then
        (text.drop start).take (e - start) :: chunksLoop fuel text L e
      else
        [text.drop start]
    else []

/-- `splitTextIntoChunks` (src/utils/embeddingUtils.ts lines 7-61);
the default `maxChunkLength` at the call site in `processTextFile` is 2048. -/
def splitTextIntoChunks (text : List Char) (L : Nat) : List (List Char) :=
  if text.length = 0 then []
  else if text.length ≤ L then [text]
  else chunksLoop (text.length + 1) text L 0

/-! ## EmbeddingAggregator: `averageEmbeddings` (src/utils/embeddingUtils.ts lines 66-84) -/

/-- `averageEmbeddings`: element-wise arithmetic mean.  The error string is the
source's `"No embeddings to average"`; a single vector is returned unchanged.
`e.getD i 0` reads `embedding[i]`; the claims only apply it to equal-dimension
vectors, where the index is always in range (on ragged input the JS code would
produce `NaN` entries, which have no counterpart in `ℚ`). -/
def averageEmbeddings (embeddings : List (List ℚ)) : Except String (List ℚ) :=
  if embeddings.length = 0 then .error "No embeddings to average"
  else if embeddings.length = 1 then .ok (embeddings.headD [])
  else
    let dimension := (embeddings.headD []).length
    .ok ((List.range dimension).map
      (fun i => (embeddings.map (fun e => e.getD i 0)).sum / (embeddings.length : ℚ)))

/-! ## IndexStore (src/services/databaseService.ts)

The database instance is modelled as `Option (List ItemDocType)`: `none` is
the uninitialized state (the `"Database not initialized"` guard), `some store`
is the RxDB `items` collection as its list of documents in insertion order.
The collection operators used by the source are modelled by their documented
semantics: `findOne {selector: {id}}` is `List.find?` on the id, `insert`
appends, and `update {$set: {embedding, dateAdded}}` replaces those two
fields of the matched document in place.  The `itemsSchema` (lines 49-63)
constrains `embedding` only to be an array of numbers — it carries no
dimension bound. -/

inductive ItemType where
  | text
  | image
  | video
deriving DecidableEq, Repr

structure ItemDocType where
  id : String
  path : String
  type : ItemType
  embedding : List ℚ
  dateAdded : String
deriving DecidableEq, Repr

/-- The effect of `existing.update({$set: {embedding, dateAdded}})`. -/
def updateDoc (d data : ItemDocType) : ItemDocType :=
  { d with embedding := data.embedding, dateAdded := data.dateAdded }

/-- `storeEmbedding` (src/services/databaseService.ts lines 81-109): find an
existing document by id; if found, `$set` its `embedding` and `dateAdded`
in place; otherwise insert the record.  Returns the new store contents
together with the document reported to the caller (the post-update
snapshot; the claims settled here concern only the stored state). -/
def storeEmbedding (db : Option (List ItemDocType)) (data : ItemDocType) :
    Except String (List ItemDocType × ItemDocType) :=
  match db with
  | none => .error "Database not initialized"
  | some store =>
    match store.find? (fun d => d.id == data.id) with
    | some existing =>
      .ok (store.map (fun d => if d.id == data.id then updateDoc d data else d),
        updateDoc existing data)
    | none => .ok (store ++ [data], data)

/-- Squared Euclidean distance between the query vector and a stored
embedding (the `$euclideanDistance` metric; comparisons against the
threshold and the ordering of results are monotone images of the squared
distance, which keeps the whole selection rational). -/
def sqDist (q e : List ℚ) : ℚ :=
  (List.zipWith (fun a b => (a - b) ^ 2) q e).sum

/-- `$maxDistance` filter: Euclidean distance ≤ threshold, expressed on
squared values. -/
def withinThreshold (q : List ℚ) (threshold : ℚ) (r : ItemDocType) : Bool :=
  decide (sqDist q r.embedding ≤ threshold ^ 2)

/-- "Closer first" ordering on (document, squared distance) pairs. -/
def distLE (a b : ItemDocType × ℚ) : Prop := a.2 ≤ b.2

instance : DecidableRel distLE := fun a b => inferInstanceAs (Decidable (a.2 ≤ b.2))

instance : IsTotal (ItemDocType × ℚ) distLE := ⟨fun a b => le_total a.2 b.2⟩

instance : IsTrans (ItemDocType × ℚ) distLE := ⟨fun _ _ _ => le_trans⟩

/-- `searchByVector` (src/services/databaseService.ts lines 114-149).
Modelled from the spec: the `$vector {$euclideanDistance, $maxDistance}`
selector is executed by the storage collaborator, which is not part of
src/; per the spec it retains the records within `threshold` of the query,
orders them ascending by distance (ties broken by insertion order — a
stable sort), truncates to `limit`, and reports each record's distance.
The result pairs each retained document with its squared distance; the
`score` field the source attaches to each result is `scoreOf threshold`
of that squared distance.  Source defaults: `limit = 20`,
`threshold = 0.5`. -/
def searchByVector (db : Option (List ItemDocType)) (queryEmbedding : List ℚ)
    (limit : Nat) (threshold : ℚ) : Except String (List (ItemDocType × ℚ)) :=
  match db with
  | none => .error "Database not initialized"
  | some store =>
    .ok ((List.insertionSort distLE
      ((store.filter (withinThreshold queryEmbedding threshold)).map
        (fun r => (r, sqDist queryEmbedding r.embedding)))).take limit)

/-- The score the source computes for a result returned at squared distance
`dsq`: `1 - distance / threshold`, where `distance` is the Euclidean
distance reported by the storage engine (`_distance`). -/
noncomputable def scoreOf (threshold dsq : ℚ) : ℝ :=
  1 - Real.sqrt (dsq : ℝ) / (threshold : ℝ)

/-! ## ModalityEmbedder: embeddingService (src/unnamed/part_001)

`processTextFile` reads its file through the filesystem collaborator; the
definition takes the file's decoded `content` directly, together with the
external text-embedding function applied per chunk.  `processVideoFile`'s
per-frame pipeline — `getThumbnailAsync` at the sampled timestamp, then
`preprocessImage`, then `getVisionEmbedding` — is three external
collaborator calls, modelled as one function from the sampled timestamp to
`Option`: `none` is a failure in any of the three steps, which the
source's per-frame `catch` swallows. -/

structure EmbeddingResult where
  embedding : Option (List ℚ)
deriving DecidableEq, Repr

/-- JS whitespace test used by `String.prototype.trim` (ASCII subset:
space, tab, LF, CR, VT, FF). -/
def jsWhitespace (c : Char) : Bool :=
  c = Char.ofNat 32 ∨ c = Char.ofNat 9 ∨ c = Char.ofNat 10 ∨
    c = Char.ofNat 13 ∨ c = Char.ofNat 11 ∨ c = Char.ofNat 12

/-- JS `String.prototype.trim`. -/
def jsTrim (s : List Char) : List Char :=
  ((s.dropWhile jsWhitespace).reverse.dropWhile jsWhitespace).reverse

/-- `processTextFile` (src/unnamed/part_001 lines 21-45): chunk the content,
embed every chunk that is non-empty after trimming, then
`embeddings.length > 1 ? averageEmbeddings(embeddings) : embeddings[0]`.
`embeddings[0]` on an empty JS array is `undefined`, modelled as
`EmbeddingResult.embedding = none`. -/
def processTextFile (getTextEmbedding : List Char → List ℚ) (content : List Char) :
    Except String EmbeddingResult :=
  let chunks := splitTextIntoChunks content 2048
  let embeddings := chunks.filterMap
    (fun chunk => if 0 < (jsTrim chunk).length then some (getTextEmbedding chunk) else none)
  if 1 < embeddings.length then
    match averageEmbeddings embeddings with
    | .ok v => .ok ⟨some v⟩
    | .error e => .error ("Failed to process text file: " ++ e)
  else .ok ⟨embeddings.head?⟩

/-- The embeddings of the frames that survive the per-frame `try`/`catch` of
`processVideoFile`: 10 frames sampled at `floor(durationMs / frameCount * i)`
= `10000 / 10 * i` milliseconds (the duration probe is commented out in the
source, so `durationMs` is always the 10000 ms fallback). -/
def videoFrameEmbeddings (frameEmbed : Nat → Option (List ℚ)) : List (List ℚ) :=
  (List.range 10).filterMap (fun i => frameEmbed (10000 / 10 * i))

/-- `processVideoFile` (src/unnamed/part_001 lines 74-119).  The inner
`throw` for zero processed frames is re-thrown by the outer `catch` with the
component tag prepended. -/
def processVideoFile (frameEmbed : Nat → Option (List ℚ)) : Except String (List ℚ) :=
  let embeddings := videoFrameEmbeddings frameEmbed
  if embeddings.length = 0 then
    .error "Failed to process video file: No frames could be processed from video."
  else
    match averageEmbeddings embeddings with
    | .ok v => .ok v
    | .error e => .error ("Failed to process video file: " ++ e)

/-! ## Model service (src/services/modelService.ts)

`Math.sin`, `Math.sqrt` and float division are modelled over `ℝ`.  The JS
`Number.prototype.toString` applied to the accumulated hash is modelled by
`Nat.repr` (the hash is a sum of products of naturals); for the vision
path, where the hash is a float, the rendering function is an explicit
parameter — every property proved below holds for all of its values. -/

/-- `s.charCodeAt(i)` at an in-range index. -/
def jsCharCodeAt (s : String) (i : Nat) : Nat :=
  (s.data.getD i (Char.ofNat 0)).toNat

/-- The character-code hash accumulated by `generateDeterministicEmbedding`:
`acc + char.charCodeAt(0) * 31 ^ (i % 10)` over the input's characters. -/
def jsHash (input : String) : Nat :=
  (List.range input.length).foldl (fun acc k => acc + jsCharCodeAt input k * 31 ^ (k % 10)) 0

/-- Component `i` of the raw (pre-normalization) deterministic embedding:
`seed * Math.sin(position * Math.PI)` with
`seed = hashStr.charCodeAt(i % hashStr.length) / 255 - 0.5` and
`position = i / dimensions`. -/
noncomputable def rawComponent (input : String) (dims : Nat) (i : Nat) : ℝ :=
  ((jsCharCodeAt (Nat.repr (jsHash input)) (i % (Nat.repr (jsHash input)).length) : ℝ) / 255
      - 1 / 2) *
    Real.sin ((i : ℝ) / (dims : ℝ) * Real.pi)

/-- `Σ v*v` — the sum the source reduces before taking the square root. -/
def sumSq (l : List ℝ) : ℝ := (l.map (fun v => v * v)).sum

/-- `generateDeterministicEmbedding` (src/services/modelService.ts lines
106-124): build the raw vector, compute its Euclidean magnitude, and divide
every component by it. -/
noncomputable def generateDeterministicEmbedding (input : String) (dims : Nat) : List ℝ :=
  let embedding := (List.range dims).map (rawComponent input dims)
  let magnitude := Real.sqrt (sumSq embedding)
  embedding.map (fun v => v / magnitude)

/-- `getTextEmbedding` (src/services/modelService.ts lines 74-84);
`textSession` is the module-level session state. -/
noncomputable def getTextEmbedding (textSession : Bool) (text : String) :
    Except String (List ℝ) :=
  if textSession then .ok (generateDeterministicEmbedding text 768)
  else .error "Text model not initialized"

/-- `getVisionEmbedding` (src/services/modelService.ts lines 86-104):
`imageHash` is `Σ data[i] * (i+1)` over the first 20 tensor entries;
`numToString` renders it as JS `Number.prototype.toString` would. -/
noncomputable def getVisionEmbedding (numToString : ℚ → String) (visionSession : Bool)
    (imageData : List ℚ) : Except String (List ℝ) :=
  if visionSession then
    let imageHash : ℚ := ((imageData.take 20).enum.map (fun p => p.2 * ((p.1 : ℚ) + 1))).sum
    .ok (generateDeterministicEmbedding (numToString imageHash) 768)
  else .error "Vision model not initialized"

/-! ## FileTypeClassifier and file utilities (src/unnamed/part_000, part_002) -/

structure FileObject where
  uri : String
  type : Option String
  name : String
  size : Option Nat
deriving DecidableEq, Repr

structure ProcessResult where
  file : FileObject
  success : Option Bool
  error : Option String
deriving DecidableEq, Repr

/-- `getFileExtension` = `path.extname` (src/unnamed/part_002 lines 10-12):
the suffix from the last dot on, empty when there is no dot or the only dot
leads the name. -/
def getFileExtension (filename : String) : String :=
  let ds := filename.data
  match ((List.range ds.length).filter (fun i => ds.getD i (Char.ofNat 0) = Char.ofNat 46)).getLast? with
  | some i => if i = 0 then "" else String.mk (ds.drop i)
  | none => ""

/-- JS `toLowerCase` (ASCII). -/
def jsToLower (s : String) : String := String.mk (s.data.map Char.toLower)

/-- JS `String.prototype.startsWith`. -/
def jsStartsWith (s pre : String) : Bool := decide (s.data.take pre.data.length = pre.data)

/-- JS `String.prototype.endsWith`. -/
def jsEndsWith (s sfx : String) : Bool :=
  decide (s.data.drop (s.data.length - sfx.data.length) = sfx.data) && decide (sfx.data.length ≤ s.data.length)

/-- `getMimeType` (src/unnamed/part_002 lines 19-37). -/
def getMimeType (filename : String) : Option String :=
  let ext := jsToLower (getFileExtension filename)
  if ext = ".txt" then some "text/plain"
  else if ext = ".md" then some "text/markdown"
  else if ext = ".rtf" then some "text/rtf"
  else if ext = ".jpg" then some "image/jpeg"
  else if ext = ".jpeg" then some "image/jpeg"
  else if ext = ".png" then some "image/png"
  else if ext = ".gif" then some "image/gif"
  else if ext = ".webp" then some "image/webp"
  else if ext = ".mp4" then some "video/mp4"
  else if ext = ".mov" then some "video/quicktime"
  else if ext = ".avi" then some "video/x-msvideo"
  else if ext = ".mkv" then some "video/x-matroska"
  else none

/-- The extension-table fallback of `determineFileType`. -/
def extensionFallback (name : String) : Option ItemType :=
  let extension := jsToLower (getFileExtension name)
  if extension = ".txt" ∨ extension = ".md" ∨ extension = ".rtf" then some .text
  else if extension = ".jpg" ∨ extension = ".jpeg" ∨ extension = ".png" ∨
      extension = ".gif" ∨ extension = ".webp" then some .image
  else if extension = ".mp4" ∨ extension = ".mov" ∨ extension = ".avi" ∨
      extension = ".mkv" then some .video
  else none

/-- `determineFileType` (src/unnamed/part_000 lines 185-204): prefer the
declared mime type (`file.type || getMimeType(file.name)` — the empty
string is falsy) matched by prefix; when it is absent or matches no prefix,
fall through to the extension table. -/
def determineFileType (file : FileObject) : Option ItemType :=
  let mimeType : Option String :=
    match file.type with
    | some t => if t = "" then getMimeType file.name else some t
    | none => getMimeType file.name
  match mimeType with
  | some m =>
    if jsStartsWith m "text/" then some .text
    else if jsStartsWith m "image/" then some .image
    else if jsStartsWith m "video/" then some .video
    else extensionFallback file.name
  | none => extensionFallback file.name

/-! ## IndexingOrchestrator: `processFolderFiles` (src/unnamed/part_000 lines 149-178)

`processFile` — the per-item pipeline of classification, embedding and
store upsert, each of which involves external collaborators — is the
parameter: `.ok b` is its returned boolean, `.error e` the message of the
exception the batch loop catches. -/

/-- The `try`/`catch` body of one iteration of the `processFolderFiles`
loop: success pushes `{file, success}`, a caught error pushes
`{file, error: error.message}`. -/
def batchOutcome (processFile : FileObject → Except String Bool) (file : FileObject) :
    ProcessResult :=
  match processFile file with
  | .ok success => { file := file, success := some success, error := none }
  | .error e => { file := file, success := none, error := some e }

/-- The `for (const file of files)` loop, threading `processedCount` and
recording each `progressCallback(processedCount, files.length)` invocation
in order. -/
def processFolderFilesLoop (processFile : FileObject → Except String Bool) (total : Nat) :
    List FileObject → Nat → List ProcessResult × List (Nat × Nat)
  | [], _ => ([], [])
  | file :: rest, processedCount =>
    let item := batchOutcome processFile file
    let next := processFolderFilesLoop processFile total rest (processedCount + 1)
    (item :: next.1, (processedCount + 1, total) :: next.2)

/-- `processFolderFiles`: returns the ordered outcomes and the trace of
progress-callback invocations. -/
def processFolderFiles (processFile : FileObject → Except String Bool)
    (files : List FileObject) : List ProcessResult × List (Nat × Nat) :=
  processFolderFilesLoop processFile files.length files 0

/-! ## FolderScanner: `scanFolderForFiles` (src/unnamed/part_000 lines 82-141)

The directory tree handed to the filesystem collaborator:
`FsEntry.file present size` models `getInfoAsync`'s `{exists, size}` for a
non-directory, and `FsEntry.dir readable children` a directory whose
`readDirectoryAsync` either lists `children` or throws (`readable = false`
— the failure the scanner catches and logs).  `uri` is built for the
non-iOS platform branch (`uri = itemPath`). -/

mutual

inductive FsEntry where
  | file (present : Bool) (size : Nat)
  | dir (readable : Bool) (children : FsEntries)

inductive FsEntries where
  | nil
  | cons (name : String) (entry : FsEntry) (rest : FsEntries)

end

/-- Concatenation of directory listings (used to state that an unreadable
entry anywhere in a listing is skipped). -/
def fsAppend : FsEntries → FsEntries → FsEntries
  | .nil, l2 => l2
  | .cons n e r, l2 => .cons n e (fsAppend r l2)

structure ScanState where
  fileCount : Nat
  supportedFiles : List FileObject
  progressTrace : List Nat
deriving DecidableEq, Repr

/-- `path.endsWith("/") ? path + itemName : path + "/" + itemName`. -/
def joinPath (path name : String) : String :=
  if jsEndsWith path "/" then path ++ name else path ++ "/" ++ name

/-- The non-directory branch of the scan loop: build the `FileObject`, keep
it when `determineFileType` classifies it, and fire the progress callback on
every 10th supported file. -/
def scanHandleFile (itemPath itemName : String) (size : Nat) (st : ScanState) : ScanState :=
  let fileObj : FileObject :=
    { uri := itemPath, type := getMimeType itemName, name := itemName, size := some size }
  match determineFileType fileObj with
  | some _ =>
    let fileCount := st.fileCount + 1
    { fileCount := fileCount,
      supportedFiles := st.supportedFiles ++ [fileObj],
      progressTrace :=
        if fileCount % 10 = 0 then st.progressTrace ++ [fileCount] else st.progressTrace }
  | none => st

mutual

/-- One iteration body of the `for (const itemName of items)` loop of
`processFolder`: recurse into a directory (`processFolder(itemPath)` — an
unreadable one is caught inside its own `try`, leaving the state unchanged
so the loop continues with the siblings), handle an existing file, skip a
non-existent entry. -/
def scanEntry (path itemName : String) (entry : FsEntry) (st : ScanState) : ScanState :=
  match entry with
  | .dir true children => scanEntries (joinPath path itemName) children st
  | .dir false _ => st
  | .file present size =>
    if present then scanHandleFile (joinPath path itemName) itemName size st else st
termination_by structural entry

/-- The `for (const itemName of items)` loop of `processFolder` over a
directory listing. -/
def scanEntries (path : String) (items : FsEntries) (st : ScanState) : ScanState :=
  match items with
  | .nil => st
  | .cons itemName entry rest =>
    scanEntries path rest (scanEntry path itemName entry st)
termination_by structural items

end

/-- `scanFolderForFiles`: scan from the root (a read failure on the root
itself is likewise caught, yielding the empty result) and fire the final
unconditional progress callback. -/
def scanFolderForFiles (folderPath : String) (root : FsEntry) : List FileObject × List Nat :=
  let st :=
    match root with
    | .dir true children => scanEntries folderPath children ⟨0, [], []⟩
    | _ => ⟨0, [], []⟩
  (st.supportedFiles, st.progressTrace ++ [st.fileCount])

/-! ## Concrete inputs used by witnesses and counterexamples -/

/-- A store holding one record beyond the 0.5 threshold and one exact match. -/
def searchDemoStore : List ItemDocType :=
  [{ id := "far", path := "p1", type := .text, embedding := [0, 0], dateAdded := "t1" },
   { id := "hit", path := "p2", type := .text, embedding := [1, 0], dateAdded := "t2" }]

/-- First upsert payload: id "x". -/
def demoDocA : ItemDocType :=
  { id := "x", path := "p", type := .text, embedding := [1, 0], dateAdded := "t1" }

/-- Second upsert payload: same id, different embedding and timestamp. -/
def demoDocB : ItemDocType :=
  { id := "x", path := "q", type := .image, embedding := [0, 1], dateAdded := "t2" }

/-- A record whose embedding has length 1, not the store dimension 768. -/
def demoDoc1Dim : ItemDocType :=
  { id := "y", path := "r", type := .text, embedding := [1], dateAdded := "t3" }

/-- A per-frame collaborator for which the frames sampled at 2000 ms,
5000 ms and 8000 ms fail and the other 7 succeed with 2-dimensional
embeddings. -/
def demoFrames : Nat → Option (List ℚ) :=
  fun t => if t = 2000 ∨ t = 5000 ∨ t = 8000 then none else some [(t : ℚ), 1]

/-- A directory tree with one unreadable subdirectory and two supported
files. -/
def demoTree : FsEntry :=
  .dir true
    (.cons "locked" (.dir false (.cons "hidden.txt" (.file true 1) .nil))
      (.cons "a.txt" (.file true 5)
        (.cons "b.png" (.file true 6) .nil)))

/-! ## Properties of the chunker -/

theorem lastIndexOf_le (text sub : List Char) (fromIdx : Nat) :
    lastIndexOf text sub fromIdx ≤ (fromIdx : Int) := by
  unfold lastIndexOf
  cases h : ((List.range (fromIdx + 1)).filter (fun i => startsWithAt text sub i)).getLast? with
  | none => simp; omega
  | some i =>
    have hm := List.mem_of_mem_getLast? h
    have := List.mem_range.mp (List.mem_of_mem_filter hm)
    simp
    omega

theorem lt_chooseEnd (text : List Char) (L : Nat) (start : Nat) (hL : 1 ≤ L) :
    start < chooseEnd text L start := by
  unfold chooseEnd
  dsimp only
  split_ifs <;> omega

theorem chooseEnd_le (text : List Char) (L : Nat) (start : Nat) :
    chooseEnd text L start ≤ start + L + 2 := by
  have h1 := lastIndexOf_le text [Char.ofNat 10, Char.ofNat 10] (start + L)
  have h2 := lastIndexOf_le text [Char.ofNat 10] (start + L)
  have h3 := lastIndexOf_le text [Char.ofNat 46, Char.ofNat 32] (start + L)
  have h4 := lastIndexOf_le text [Char.ofNat 33, Char.ofNat 32] (start + L)
  have h5 := lastIndexOf_le text [Char.ofNat 63, Char.ofNat 32] (start + L)
  have h6 := lastIndexOf_le text [Char.ofNat 32] (start + L)
  have hmax : (lastIndexOf text [Char.ofNat 46, Char.ofNat 32] (start + L) ⊔
      (lastIndexOf text [Char.ofNat 33, Char.ofNat 32] (start + L) ⊔
        lastIndexOf text [Char.ofNat 63, Char.ofNat 32] (start + L)))
      ≤ ((start + L : Nat) : Int) := by
    simp only [max_le_iff]
    exact ⟨h3, h4, h5⟩
  unfold chooseEnd
  dsimp only
  split_ifs <;> omega

theorem chunksLoop_flatten (fuel : Nat) : ∀ (text : List Char) (L start : Nat),
    text.length < start + fuel →
    (chunksLoop fuel text L start).flatten = text.drop start := by
  induction fuel with
  | zero =>
    intro text L start h
    simp [chunksLoop]
    omega
  | succ n ih =>
    intro text L start h
    rw [chunksLoop]
    split
    · rename_i hs
      dsimp only
      split
      · rename_i he
        rw [List.flatten_cons, ih text L (chooseEnd text L start) (by omega)]
        rw [show text.drop (chooseEnd text L start)
              = (text.drop start).drop (chooseEnd text L start - start) by
            rw [List.drop_drop]; congr 1; omega]
        exact List.take_append_drop _ _
      · simp
    · rename_i hs
      simp
      omega

theorem splitTextIntoChunks_flatten (text : List Char) (L : Nat) :
    (splitTextIntoChunks text L).flatten = text := by
  unfold splitTextIntoChunks
  split
  · rename_i h
    simp [List.eq_nil_of_length_eq_zero h]
  · split
    · simp
    · rw [chunksLoop_flatten (text.length + 1) text L 0 (by omega)]
      simp

theorem chunksLoop_length_le (fuel : Nat) : ∀ (text : List Char) (L start : Nat),
    1 ≤ L → ∀ c ∈ chunksLoop fuel text L start, c.length ≤ L + 2 := by
  induction fuel with
  | zero => intro text L start _ c hc; simp [chunksLoop] at hc
  | succ n ih =>
    intro text L start hL c hc
    rw [chunksLoop] at hc
    split at hc
    · dsimp only at hc
      rw [if_pos (lt_chooseEnd text L start hL)] at hc
      rcases List.mem_cons.mp hc with h | h
      · subst h
        have := chooseEnd_le text L start
        have := List.length_take_le (chooseEnd text L start - start) (text.drop start)
        simp at this ⊢
        omega
      · exact ih text L _ hL c h
    · simp at hc

theorem splitTextIntoChunks_length_le (text : List Char) (L : Nat) (hL : 1 ≤ L) :
    ∀ c ∈ splitTextIntoChunks text L, c.length ≤ L + 2 := by
  intro c hc
  unfold splitTextIntoChunks at hc
  split at hc
  · simp at hc
  · split at hc
    · rename_i h
      simp at hc
      subst hc
      omega
    · exact chunksLoop_length_le _ text L 0 hL c hc

/-! ## Claim C4 -/

/-- C4: for every input text and maximum chunk length `L ≥ 1`, concatenating
the chunks of `splitTextIntoChunks` in order reproduces the original text
exactly, and the empty text yields the empty chunk sequence. -/
theorem claim_C4_lossless_chunking (text : List Char) (L : Nat) (_hL : 1 ≤ L) :
    (splitTextIntoChunks text L).flatten = text ∧
      splitTextIntoChunks ([] : List Char) L = [] :=
  ⟨splitTextIntoChunks_flatten text L, rfl⟩

theorem claim_C4_witness :
    1 ≤ 1 ∧ ((splitTextIntoChunks ("ab".data) 1).flatten = "ab".data ∧
      splitTextIntoChunks ([] : List Char) 1 = []) :=
  ⟨by decide, claim_C4_lossless_chunking ("ab".data) 1 (by decide)⟩

/-! ## Claim C5 (corrected) -/

/-- C5 (amended): for every input text and maximum chunk length `L ≥ 1`,
every chunk returned by `splitTextIntoChunks` has length at most `L + 2`:
each cut is placed just after the furthest natural boundary *beginning* at
or before `start+L` that lies beyond `start+L/2`, so the boundary's
delimiter (up to two characters) may extend past `start+L`; the cut is at
exactly `start+L` when no such boundary exists. -/
theorem claim_C5_chunk_length_bound (text : List Char) (L : Nat) (hL : 1 ≤ L)
    (c : List Char) (hc : c ∈ splitTextIntoChunks text L) : c.length ≤ L + 2 :=
  splitTextIntoChunks_length_le text L hL c hc

/-- C5 counterexample: with `L = 2`, the input `"ab\n\ncdef"` produces the
chunk `"ab\n\n"` of length 4 > L — the paragraph break beginning exactly at
`start+L` is chosen and its two-character delimiter is included in the
chunk, refuting "every chunk has length at most L". -/
theorem claim_C5_counterexample :
    ("ab\n\n".data) ∈ splitTextIntoChunks ("ab\n\ncdef".data) 2 ∧
      ¬ (("ab\n\n".data).length ≤ 2) := by
  decide

theorem claim_C5_witness :
    1 ≤ 2 ∧ ("ab\n\n".data) ∈ splitTextIntoChunks ("ab\n\ncdef".data) 2 ∧
      ("ab\n\n".data).length ≤ 2 + 2 :=
  ⟨by decide, by decide,
    claim_C5_chunk_length_bound ("ab\n\ncdef".data) 2 (by decide) ("ab\n\n".data) (by decide)⟩

/-! ## Claim C1 -/

theorem processFolderFilesLoop_spec (pf : FileObject → Except String Bool) (total : Nat) :
    ∀ (files : List FileObject) (c : Nat),
      (processFolderFilesLoop pf total files c).1 = files.map (batchOutcome pf) ∧
      (processFolderFilesLoop pf total files c).2 =
        (List.range files.length).map (fun i => (c + i + 1, total)) := by
  intro files
  induction files with
  | nil => intro c; simp [processFolderFilesLoop]
  | cons f rest ih =>
    intro c
    refine ⟨?_, ?_⟩
    · simp only [processFolderFilesLoop, List.map_cons]
      rw [(ih (c + 1)).1]
    · simp only [processFolderFilesLoop, List.length_cons]
      rw [(ih (c + 1)).2, List.range_succ_eq_map, List.map_cons, List.map_map]
      refine congrArg₂ _ (by simp) (List.map_congr_left ?_)
      intro i _
      simp only [Function.comp_apply]
      congr 1
      omega

/-- C1: `processFolderFiles` returns exactly one outcome per input file, in
input order — the outcome of each file is the result of its own
`try`/`catch` (success recorded as `{file, success}`, a caught failure as
`{file, error}`), so a failure never stops the batch early — and the
progress callback is invoked exactly once after every item with
`(processedCount, total)`. -/
theorem claim_C1_batch_outcomes (pf : FileObject → Except String Bool)
    (files : List FileObject) :
    (processFolderFiles pf files).1 = files.map (batchOutcome pf) ∧
    (∀ file, batchOutcome pf file =
      match pf file with
      | .ok b => { file := file, success := some b, error := none }
      | .error e => { file := file, success := none, error := some e }) ∧
    (processFolderFiles pf files).2 =
      (List.range files.length).map (fun i => (i + 1, files.length)) := by
  have h := processFolderFilesLoop_spec pf files.length files 0
  refine ⟨h.1, fun _ => rfl, ?_⟩
  rw [show (processFolderFiles pf files).2 = (processFolderFilesLoop pf files.length files 0).2
      from rfl, h.2]
  exact List.map_congr_left (fun i _ => by congr 1; omega)

/-! ## Claim C2 (code bug) -/

/-- C2: on content whose every chunk trims to the empty string — in
particular empty or whitespace-only content — `processTextFile` does
*not* fail: `embeddings.length > 1` is false, `embeddings[0]` on the empty
array is `undefined`, and the function returns `{embedding: undefined}`,
violating its own declared return type `{embedding: number[]}` instead of
raising the `NoContentError` the spec requires. -/
theorem claim_C2_no_content_returns_undefined (embed : List Char → List ℚ) :
    processTextFile embed ("".data) = .ok ⟨none⟩ ∧
      processTextFile embed (" ".data) = .ok ⟨none⟩ := by
  constructor <;> rfl

/-! ## Claim C6 -/

/-- C6: starting from a store with no record under the shared id, upserting
`r1` and then `r2` (same id, different embedding) leaves exactly one record
under that id: the first call inserts `r1`, the second finds it by id and
replaces its `embedding` and `dateAdded` in place with those of `r2`. -/
theorem claim_C6_upsert_replaces (store : List ItemDocType) (r1 r2 : ItemDocType)
    (hid : r1.id = r2.id) (hfresh : ∀ d ∈ store, d.id ≠ r1.id) :
    ∃ s1 ret1 s2 ret2,
      storeEmbedding (some store) r1 = .ok (s1, ret1) ∧
      s1 = store ++ [r1] ∧
      storeEmbedding (some s1) r2 = .ok (s2, ret2) ∧
      s2 = store ++ [updateDoc r1 r2] ∧
      s2.filter (fun d => d.id == r1.id) = [updateDoc r1 r2] := by
  have hnone : store.find? (fun d => d.id == r1.id) = none :=
    List.find?_eq_none.mpr (fun d hd => by simp [hfresh d hd])
  have hnone2 : store.find? (fun d => d.id == r2.id) = none := by
    rw [← hid]; exact hnone
  have hfind2 : (store ++ [r1]).find? (fun d => d.id == r2.id) = some r1 := by
    rw [List.find?_append, hnone2]
    simp [hid]
  refine ⟨store ++ [r1], r1, ?_⟩
  rw [storeEmbedding, hnone]
  refine ⟨store ++ [updateDoc r1 r2], updateDoc r1 r2, rfl, rfl, ?_, ?_, ?_⟩
  · rw [storeEmbedding, hfind2]
    simp only [List.map_append, List.map_cons, List.map_nil]
    rw [List.map_congr_left (fun d hd => if_neg (by simp [hid ▸ hfresh d hd]))]
    simp [hid]
  · rfl
  · rw [List.filter_append]
    rw [List.filter_eq_nil_iff.mpr (fun d hd => by simp [hfresh d hd])]
    simp [updateDoc]

theorem claim_C6_witness :
    demoDocA.id = demoDocB.id ∧
    (∃ s1 ret1 s2 ret2,
      storeEmbedding (some []) demoDocA = .ok (s1, ret1) ∧
      s1 = [] ++ [demoDocA] ∧
      storeEmbedding (some s1) demoDocB = .ok (s2, ret2) ∧
      s2 = [] ++ [updateDoc demoDocA demoDocB] ∧
      s2.filter (fun d => d.id == demoDocA.id) = [updateDoc demoDocA demoDocB]) :=
  ⟨rfl, claim_C6_upsert_replaces [] demoDocA demoDocB rfl (by simp)⟩

/-! ## Claim C7 (corrected) -/

/-- C7 (amended): the store does not enforce the embedding dimension — the
`itemsSchema` constrains `embedding` only to be an array of numbers, so an
upsert with an embedding of any length succeeds and stores the embedding
verbatim (no truncation, no padding, no `DimensionMismatchError`); the
fixed dimension 768 is maintained only by the embedding producers (see
C10), not by the store. -/
theorem claim_C7_store_accepts_any_dimension (store : List ItemDocType) (data : ItemDocType) :
    ∃ s ret, storeEmbedding (some store) data = .ok (s, ret) ∧
      ∃ d ∈ s, d.id = data.id ∧ d.embedding = data.embedding := by
  rw [storeEmbedding]
  cases hf : store.find? (fun d => d.id == data.id) with
  | none =>
    exact ⟨store ++ [data], data, rfl, data, by simp, rfl, rfl⟩
  | some existing =>
    have hex := List.mem_of_find?_eq_some hf
    have hid : (existing.id == data.id) = true := by simpa using List.find?_some hf
    have hmem : updateDoc existing data ∈
        store.map (fun d => if d.id == data.id then updateDoc d data else d) := by
      have hm := List.mem_map_of_mem (fun d => if d.id == data.id then updateDoc d data else d) hex
      simpa [hid] using hm
    exact ⟨_, _, rfl, updateDoc existing data, hmem, eq_of_beq hid, rfl⟩

theorem claim_C7_counterexample :
    demoDoc1Dim.embedding.length ≠ 768 ∧
      storeEmbedding (some []) demoDoc1Dim = .ok ([demoDoc1Dim], demoDoc1Dim) := by
  constructor
  · decide
  · rfl

/-! ## Claim C8 -/

theorem averageEmbeddings_mean (embeddings : List (List ℚ)) (dim : Nat)
    (hne : embeddings ≠ [])
    (hdim : ∀ e ∈ embeddings, e.length = dim) :
    ∃ v, averageEmbeddings embeddings = .ok v ∧ v.length = dim ∧
      ∀ i, i < dim → v.getD i 0 =
        (embeddings.map (fun e => e.getD i 0)).sum / (embeddings.length : ℚ) := by
  have hlen0 : embeddings.length ≠ 0 := by simpa using hne
  by_cases h1 : embeddings.length = 1
  · obtain ⟨e, rfl⟩ := List.length_eq_one.mp h1
    refine ⟨e, rfl, hdim e (by simp), ?_⟩
    intro i hi
    simp
  · have hhead : (embeddings.headD []).length = dim := by
      cases embeddings with
      | nil => exact absurd rfl hne
      | cons e es => exact hdim e (by simp)
    have hgoal : averageEmbeddings embeddings =
        .ok ((List.range (embeddings.headD []).length).map
          (fun i => (embeddings.map (fun e => e.getD i 0)).sum / (embeddings.length : ℚ))) := by
      unfold averageEmbeddings
      rw [if_neg hlen0, if_neg h1]
    refine ⟨_, hgoal, by rw [List.length_map, List.length_range]; exact hhead, ?_⟩
    intro i hi
    rw [hhead]
    simp [List.getD_eq_getElem?_getD, List.getElem?_map, List.getElem?_range, hi]

/-- C8: every per-frame failure is local — a frame on which the
extraction/preprocessing/embedding pipeline fails contributes nothing and
the remaining frames are still processed; `processVideoFile` fails with the
no-frames error exactly when all 10 sampled frames failed, and otherwise
returns the element-wise mean of the embeddings of the successful frames
(for example the mean of the 7 surviving embeddings when 7 of 10 attempts
succeed, as in the witness). -/
theorem claim_C8_video_aggregation (frameEmbed : Nat → Option (List ℚ)) (dim : Nat)
    (hdim : ∀ e ∈ videoFrameEmbeddings frameEmbed, e.length = dim) :
    (videoFrameEmbeddings frameEmbed = [] →
      processVideoFile frameEmbed =
        .error "Failed to process video file: No frames could be processed from video.") ∧
    (videoFrameEmbeddings frameEmbed ≠ [] →
      ∃ v, processVideoFile frameEmbed = .ok v ∧ v.length = dim ∧
        ∀ i, i < dim → v.getD i 0 =
          ((videoFrameEmbeddings frameEmbed).map (fun e => e.getD i 0)).sum /
            ((videoFrameEmbeddings frameEmbed).length : ℚ)) := by
  constructor
  · intro h
    unfold processVideoFile
    rw [h]
    rfl
  · intro h
    obtain ⟨v, hok, hlen, hmean⟩ := averageEmbeddings_mean _ dim h hdim
    refine ⟨v, ?_, hlen, hmean⟩
    unfold processVideoFile
    rw [if_neg (by simpa using h), hok]

theorem claim_C8_witness :
    (∀ e ∈ videoFrameEmbeddings demoFrames, e.length = 2) ∧
    videoFrameEmbeddings demoFrames ≠ [] ∧
    (videoFrameEmbeddings demoFrames).length = 7 ∧
    (∃ v, processVideoFile demoFrames = .ok v ∧ v.length = 2 ∧
      v.getD 0 0 = ((videoFrameEmbeddings demoFrames).map (fun e => e.getD 0 0)).sum /
        ((videoFrameEmbeddings demoFrames).length : ℚ)) := by
  refine ⟨by decide, by decide, by decide, ?_⟩
  obtain ⟨v, hok, hlen, hmean⟩ :=
    (claim_C8_video_aggregation demoFrames 2 (by decide)).2 (by decide)
  exact ⟨v, hok, hlen, hmean 0 (by decide)⟩

/-! ## Claim C9 -/

theorem scanEntries_skip_unreadable (path : String) (l1 : FsEntries) (name : String)
    (cs : FsEntries) (l2 : FsEntries) (st : ScanState) :
    scanEntries path (fsAppend l1 (.cons name (.dir false cs) l2)) st =
      scanEntries path (fsAppend l1 l2) st := by
  match l1 with
  | .nil => rfl
  | .cons n e r =>
    simp only [fsAppend, scanEntries]
    exact scanEntries_skip_unreadable path r name cs l2 _

/-- C9: a read failure on any one directory only skips that subtree — the
scan of any directory listing containing an unreadable directory equals the
scan with that entry removed, so siblings (before and after it) are still
scanned and the overall scan never aborts; concretely, the demo tree with
one unreadable subdirectory and two valid supported files still yields both
files (and the final unconditional progress callback reports 2). -/
theorem claim_C9_scan_survives_unreadable (path : String) (l1 l2 : FsEntries)
    (name : String) (cs : FsEntries) (st : ScanState) :
    scanEntries path (fsAppend l1 (.cons name (.dir false cs) l2)) st =
      scanEntries path (fsAppend l1 l2) st ∧
    scanFolderForFiles "/root" demoTree =
      ([{ uri := "/root/a.txt", type := some "text/plain", name := "a.txt", size := some 5 },
        { uri := "/root/b.png", type := some "image/png", name := "b.png", size := some 6 }],
       [2]) :=
  ⟨scanEntries_skip_unreadable path l1 name cs l2 st, by decide⟩

/-! ## Claim C3 -/

theorem sqDist_nonneg (q e : List ℚ) : 0 ≤ sqDist q e := by
  induction q generalizing e with
  | nil => simp [sqDist]
  | cons a q ih =>
    cases e with
    | nil => simp [sqDist]
    | cons b e =>
      have h1 := ih e
      have h2 : 0 ≤ (a - b) ^ 2 := sq_nonneg _
      unfold sqDist at h1 ⊢
      simp only [List.zipWith_cons_cons, List.sum_cons]
      linarith

theorem sqDist_self (q : List ℚ) : sqDist q q = 0 := by
  induction q with
  | nil => rfl
  | cons a q ih =>
    unfold sqDist at ih ⊢
    simp only [List.zipWith_cons_cons, List.sum_cons, ih, sub_self]
    ring

theorem sqDist_eq_zero (q : List ℚ) : ∀ e : List ℚ, e.length = q.length →
    sqDist q e = 0 → e = q := by
  induction q with
  | nil =>
    intro e hlen _
    exact List.eq_nil_of_length_eq_zero hlen
  | cons a q ih =>
    intro e hlen h
    cases e with
    | nil => simp at hlen
    | cons b e =>
      unfold sqDist at h
      simp only [List.zipWith_cons_cons, List.sum_cons] at h
      have h1 : 0 ≤ (a - b) ^ 2 := sq_nonneg _
      have h2 : 0 ≤ sqDist q e := sqDist_nonneg q e
      unfold sqDist at h2
      have hsq : (a - b) ^ 2 = 0 := by linarith
      have hrest : (List.zipWith (fun a b => (a - b) ^ 2) q e).sum = 0 := by linarith
      have hb : b = a := by
        have := pow_eq_zero_iff (n := 2) (by norm_num) |>.mp hsq
        linarith [sub_eq_zero.mp this]
      rw [hb, ih e (by simpa using hlen) hrest]

/-- C3: `search` retains exactly the stored records whose Euclidean distance
to the query is within the threshold (farther records are excluded
entirely), orders them ascending by distance, truncates to `limit`, and
scores each retained record `max 0 (1 - d/threshold)` (which the source
computes as `1 - d/threshold`, the two being equal on retained records);
when the corpus contains a record whose embedding equals the query, the
first result is at distance 0 with score 1. -/
theorem claim_C3_search_ranked (store : List ItemDocType) (q : List ℚ) (limit : Nat)
    (threshold : ℚ) (hth : 0 < threshold) (hlim : 1 ≤ limit)
    (hlen : ∀ r ∈ store, r.embedding.length = q.length) :
    ∃ ranked : List (ItemDocType × ℚ),
      searchByVector (some store) q limit threshold = .ok (ranked.take limit) ∧
      List.Sorted distLE ranked ∧
      ranked.Perm ((store.filter (withinThreshold q threshold)).map
        (fun r => (r, sqDist q r.embedding))) ∧
      (ranked.take limit).length ≤ limit ∧
      (∀ p ∈ ranked, p.2 = sqDist q p.1.embedding ∧ sqDist q p.1.embedding ≤ threshold ^ 2 ∧
        scoreOf threshold p.2 = max 0 (1 - Real.sqrt ((p.2 : ℚ) : ℝ) / ((threshold : ℚ) : ℝ)) ∧
        0 ≤ scoreOf threshold p.2 ∧ scoreOf threshold p.2 ≤ 1) ∧
      (∀ r ∈ store, threshold ^ 2 < sqDist q r.embedding → ∀ d, (r, d) ∉ ranked) ∧
      (∀ r ∈ store, r.embedding = q →
        ∃ p, (ranked.take limit).head? = some p ∧ p.2 = 0 ∧ p.1.embedding = q ∧
          scoreOf threshold p.2 = 1) := by
  have hthR : (0 : ℝ) < ((threshold : ℚ) : ℝ) := by exact_mod_cast hth
  set fl := (store.filter (withinThreshold q threshold)).map
    (fun r => (r, sqDist q r.embedding)) with hfl
  have hperm := List.perm_insertionSort distLE fl
  have hsorted := List.sorted_insertionSort distLE fl
  have hmemchar : ∀ p ∈ List.insertionSort distLE fl,
      p.1 ∈ store ∧ p.2 = sqDist q p.1.embedding ∧ sqDist q p.1.embedding ≤ threshold ^ 2 := by
    intro p hp
    obtain ⟨r, hrf, rfl⟩ := List.mem_map.mp (hperm.mem_iff.mp hp)
    obtain ⟨hrs, hwt⟩ := List.mem_filter.mp hrf
    exact ⟨hrs, rfl, of_decide_eq_true hwt⟩
  refine ⟨List.insertionSort distLE fl, rfl, hsorted, hperm, ?_, ?_, ?_, ?_⟩
  · rw [List.length_take]
    exact min_le_left _ _
  · intro p hp
    obtain ⟨hps, hp2, hple⟩ := hmemchar p hp
    have hd0 : (0 : ℝ) ≤ ((p.2 : ℚ) : ℝ) := by
      rw [hp2]
      exact_mod_cast sqDist_nonneg q p.1.embedding
    have hsq : Real.sqrt ((p.2 : ℚ) : ℝ) ≤ ((threshold : ℚ) : ℝ) := by
      have hcast : ((p.2 : ℚ) : ℝ) ≤ ((threshold : ℚ) : ℝ) ^ 2 := by
        rw [hp2]
        exact_mod_cast hple
      calc Real.sqrt ((p.2 : ℚ) : ℝ) ≤ Real.sqrt (((threshold : ℚ) : ℝ) ^ 2) :=
            Real.sqrt_le_sqrt hcast
        _ = ((threshold : ℚ) : ℝ) := Real.sqrt_sq hthR.le
    have hratio : Real.sqrt ((p.2 : ℚ) : ℝ) / ((threshold : ℚ) : ℝ) ≤ 1 :=
      (div_le_one hthR).mpr hsq
    have hratio0 : 0 ≤ Real.sqrt ((p.2 : ℚ) : ℝ) / ((threshold : ℚ) : ℝ) :=
      div_nonneg (Real.sqrt_nonneg _) hthR.le
    refine ⟨hp2, hple, ?_, ?_, ?_⟩
    · rw [max_eq_right (by linarith)]
      unfold scoreOf
      rfl
    · unfold scoreOf
      linarith
    · unfold scoreOf
      linarith
  · intro r hr hgt d hmem
    obtain ⟨r', hr'f, heq⟩ := List.mem_map.mp (hperm.mem_iff.mp hmem)
    obtain ⟨hr's, hwt⟩ := List.mem_filter.mp hr'f
    obtain ⟨rfl, -⟩ := Prod.mk.injEq .. ▸ heq
    exact absurd (of_decide_eq_true hwt) (not_le.mpr hgt)
  · intro r hr hremb
    have h0 : sqDist q r.embedding = 0 := by
      rw [hremb]
      exact sqDist_self q
    have hwt : withinThreshold q threshold r = true := by
      unfold withinThreshold
      rw [h0]
      exact decide_eq_true (by positivity)
    have hrank : (r, sqDist q r.embedding) ∈ List.insertionSort distLE fl :=
      hperm.mem_iff.mpr (List.mem_map_of_mem _ (List.mem_filter.mpr ⟨hr, hwt⟩))
    cases hc : List.insertionSort distLE fl with
    | nil => rw [hc] at hrank; simp at hrank
    | cons p0 tl =>
      have hp0mem : p0 ∈ List.insertionSort distLE fl := by rw [hc]; exact List.mem_cons_self _ _
      obtain ⟨hp0s, hp02, -⟩ := hmemchar p0 hp0mem
      have hle0 : p0.2 ≤ 0 := by
        rw [hc] at hrank
        rcases List.mem_cons.mp hrank with hhd | htl
        · rw [← hhd]
          simp [h0]
        · have hs := hsorted
          rw [hc] at hs
          have := (List.sorted_cons.mp hs).1 _ htl
          unfold distLE at this
          simp only at this
          rw [h0] at this
          exact this
      have hge0 : 0 ≤ p0.2 := hp02 ▸ sqDist_nonneg q p0.1.embedding
      have hp0z : p0.2 = 0 := le_antisymm hle0 hge0
      have hp0emb : p0.1.embedding = q :=
        sqDist_eq_zero q p0.1.embedding (hlen p0.1 hp0s) (by rw [← hp02, hp0z])
      refine ⟨p0, ?_, hp0z, hp0emb, ?_⟩
      · rw [List.head?_take, if_neg (by omega)]
        rfl
      · unfold scoreOf
        rw [hp0z]
        simp

theorem claim_C3_witness :
    (0 : ℚ) < 1 / 2 ∧ 1 ≤ 5 ∧
    (∀ r ∈ searchDemoStore, r.embedding.length = ([1, 0] : List ℚ).length) ∧
    (∃ res, searchByVector (some searchDemoStore) [1, 0] 5 (1 / 2) = .ok res ∧
      ∃ p, res.head? = some p ∧ p.2 = 0 ∧ p.1.embedding = [1, 0] ∧
        scoreOf (1 / 2) p.2 = 1) := by
  refine ⟨by norm_num, by norm_num, by decide, ?_⟩
  obtain ⟨ranked, hok, -, -, -, -, -, hexact⟩ :=
    claim_C3_search_ranked searchDemoStore [1, 0] 5 (1 / 2) (by norm_num) (by norm_num)
      (by decide)
  obtain ⟨p, hp, h0, hemb, hscore⟩ := hexact
    { id := "hit", path := "p2", type := .text, embedding := [1, 0], dateAdded := "t2" }
    (by decide) rfl
  exact ⟨ranked.take 5, hok, p, hp, h0, hemb, hscore⟩

/-! ## Claim C10 -/

theorem sumSq_nonneg (l : List ℝ) : 0 ≤ sumSq l := by
  apply List.sum_nonneg
  intro x hx
  obtain ⟨v, -, rfl⟩ := List.mem_map.mp hx
  exact mul_self_nonneg v

theorem sumSq_map_div (l : List ℝ) (m : ℝ) :
    sumSq (l.map (fun v => v / m)) = sumSq l / (m * m) := by
  unfold sumSq
  rw [List.map_map]
  have hfun : ((fun v => v * v) ∘ fun v => v / m) = fun v : ℝ => (v * v) * (m * m)⁻¹ := by
    funext v
    simp only [Function.comp_apply]
    rw [div_mul_div_comm, div_eq_mul_inv]
  rw [hfun, List.sum_map_mul_right, div_eq_mul_inv]

theorem seed_ne_zero (c : Nat) : ((c : ℝ) / 255 - 1 / 2) ≠ 0 := by
  intro h
  have hc : (2 * c : ℝ) = 255 := by
    have hcast : ((2 * c : ℕ) : ℝ) = 2 * (c : ℝ) := by push_cast; ring
    linarith
  have h2 : (2 * c : ℕ) = 255 := by exact_mod_cast hc
  omega

theorem rawComponent_one_ne_zero (input : String) : rawComponent input 768 1 ≠ 0 := by
  unfold rawComponent
  apply mul_ne_zero
  · exact seed_ne_zero _
  · have h1 : (0 : ℝ) < ((1 : Nat) : ℝ) / ((768 : Nat) : ℝ) * Real.pi := by
      push_cast
      positivity
    have h2 : ((1 : Nat) : ℝ) / ((768 : Nat) : ℝ) * Real.pi < Real.pi := by
      push_cast
      nlinarith [Real.pi_pos]
    exact ne_of_gt (Real.sin_pos_of_pos_of_lt_pi h1 h2)

theorem generateDeterministicEmbedding_spec (input : String) :
    (generateDeterministicEmbedding input 768).length = 768 ∧
    sumSq (generateDeterministicEmbedding input 768) = 1 := by
  have hmem : rawComponent input 768 1 ∈ (List.range 768).map (rawComponent input 768) :=
    List.mem_map_of_mem _ (List.mem_range.mpr (by norm_num))
  have hsqmem : rawComponent input 768 1 * rawComponent input 768 1 ∈
      ((List.range 768).map (rawComponent input 768)).map (fun v => v * v) :=
    List.mem_map_of_mem _ hmem
  have hone : 0 < rawComponent input 768 1 * rawComponent input 768 1 :=
    mul_self_pos.mpr (rawComponent_one_ne_zero input)
  have hpos : 0 < sumSq ((List.range 768).map (rawComponent input 768)) := by
    have hl := List.single_le_sum
      (l := (((List.range 768).map (rawComponent input 768)).map (fun v => v * v)))
      (fun x hx => by
        obtain ⟨v, -, rfl⟩ := List.mem_map.mp hx
        exact mul_self_nonneg v) _ hsqmem
    unfold sumSq
    linarith
  constructor
  · unfold generateDeterministicEmbedding
    simp
  · show sumSq (((List.range 768).map (rawComponent input 768)).map
      (fun v => v / Real.sqrt (sumSq ((List.range 768).map (rawComponent input 768))))) = 1
    rw [sumSq_map_div, Real.mul_self_sqrt hpos.le]
    exact div_self (ne_of_gt hpos)

/-- C10: for every input, `getTextEmbedding` and `getVisionEmbedding` (with
their sessions initialized) return vectors with exactly 768 components and
unit Euclidean magnitude: `generateDeterministicEmbedding` divides the raw
deterministic vector component-wise by its own Euclidean norm, so every
embedding the indexing pipeline stores is normalized and of the store's
dimension. -/
theorem claim_C10_unit_embeddings (text : String) (numToString : ℚ → String)
    (imageData : List ℚ) :
    ∃ vt vv, getTextEmbedding true text = .ok vt ∧
      getVisionEmbedding numToString true imageData = .ok vv ∧
      vt.length = 768 ∧ sumSq vt = 1 ∧ vv.length = 768 ∧ sumSq vv = 1 := by
  obtain ⟨hl1, hs1⟩ := generateDeterministicEmbedding_spec text
  obtain ⟨hl2, hs2⟩ := generateDeterministicEmbedding_spec
    (numToString (((imageData.take 20).enum.map (fun p => p.2 * ((p.1 : ℚ) + 1))).sum))
  exact ⟨_, _, rfl, rfl, hl1, hs1, hl2, hs2⟩

end SFA
